import Mathlib

/-!
Verification of the MultiFinder equation-solving core.

We give a shallow embedding of the scalar nonlinear-equation pipeline:
the expression normalizer and classifier (`src/src/utils.py`:
`preprocess_expression`, `parse_expression`), the numeric root finders
(`src/src/solver.py`: `solve_polynomial` via numpy's `roots`,
`solve_nonpolynomial` via grid-seeded `fsolve` with dedup), the root
verifier (`src/src/solver.py`: `verify_roots`) and the output formatter
(`src/src/utils.py`: `format_number`).

Python strings are modelled as `List Char`.  External collaborators
(SymPy's `sympify`/`Poly`/numeric substitution, SciPy's `fsolve`, the
LAPACK eigenvalue routine behind `numpy.roots`) are modelled as explicit
oracle parameters; everything the repository itself computes is embedded
as executable Lean definitions translated from the source.
-/

namespace MultiFinder

/-! ### Python string primitives, over `List Char` -/

/-- Python `s.replace(old, new)` for a single-character pattern whose
replacement is a single character (used for the `'−' → '-'` and
`'×' → '*'` substitutions). -/
def replaceChar (old new : Char) : List Char → List Char :=
  List.map (fun c => if c = old then new else c)

/-- Python `s.replace(' ', '')`: remove every occurrence of a character. -/
def removeChar (c : Char) (s : List Char) : List Char :=
  s.filter (fun x => x ≠ c)

/-- Python `s.replace('e', 'exp(1)')`: single left-to-right pass over the
original string; the replacement text is not rescanned. -/
def replaceE : List Char → List Char
  | [] => []
  | c :: rest =>
    if c = 'e' then 'e' :: 'x' :: 'p' :: '(' :: '1' :: ')' :: replaceE rest
    else c :: replaceE rest

/-- The test `matchesAt needle hay` holds when `needle` is an initial segment of
`hay` (Python `hay.startswith(needle)`). -/
def matchesAt : List Char → List Char → Bool
  | [], _ => true
  | _ :: _, [] => false
  | a :: as, b :: bs => a == b && matchesAt as bs

/-- Python substring test `needle in hay`. -/
def subIn (needle : List Char) : List Char → Bool
  | [] => matchesAt needle []
  | c :: rest => matchesAt needle (c :: rest) || subIn needle rest

/-- Python `s.split(sep)` for a single-character separator: splits on
every occurrence, keeping empty pieces, as CPython does. -/
def splitOnChar (c : Char) : List Char → List (List Char)
  | [] => [[]]
  | x :: xs =>
    if x = c then [] :: splitOnChar c xs
    else
      match splitOnChar c xs with
      | [] => [[x]]
      | p :: ps => (x :: p) :: ps

/-- Python `s.rstrip(c)` for a one-character strip set. -/
def rstrip (c : Char) (s : List Char) : List Char :=
  (s.reverse.dropWhile (fun x => x == c)).reverse

/-- Decimal digits of a natural number, most significant first, with an
explicit fuel argument to keep the recursion structural. -/
def natDigsF : Nat → Nat → List Char
  | 0, _ => []
  | fuel + 1, n =>
    if n < 10 then [Nat.digitChar n]
    else natDigsF fuel (n / 10) ++ [Nat.digitChar (n % 10)]

/-- Python `str(n)` for a natural number. -/
def natDigs (n : Nat) : List Char := natDigsF (n + 1) n

/-- Python `str(i)` for an integer. -/
def intStr (i : Int) : List Char :=
  (if i < 0 then ['-'] else []) ++ natDigs i.natAbs

/-! ### Expression normalizer (`src/src/utils.py`, `preprocess_expression`) -/

/-- Implicit-multiplication pass of `preprocess_expression`: scanning left
to right, insert `'*'` before an alphabetic character whose predecessor in
the original string is a digit or `')'`.  `prev` carries `expression[i-1]`
(`none` at `i = 0`). -/
def implicitMulAux (prev : Option Char) : List Char → List Char
  | [] => []
  | c :: rest =>
    (if c.isAlpha && (match prev with
        | some p => p.isDigit || p == ')'
        | none => false)
      then ['*', c] else [c]) ++ implicitMulAux (some c) rest

/-- From `src/src/utils.py`, `preprocess_expression`: glyph substitution,
whitespace removal, substitution of the letter `e` by `exp(1)`, then the
implicit-multiplication pass. -/
def preprocess_expression (expression : List Char) : List Char :=
  let e1 := replaceChar '−' '-' expression
  let e2 := replaceChar '×' '*' e1
  let e3 := removeChar ' ' e2
  let e4 := replaceE e3
  implicitMulAux none e4

/-- From `src/solver.py` (repository root), `preprocess_expression`: the
duplicate copy of the normalizer, which performs the same glyph and
whitespace handling and the implicit-multiplication pass but has no
`e → exp(1)` substitution step. -/
def preprocess_expression_solver_copy (expression : List Char) : List Char :=
  let e1 := replaceChar '−' '-' expression
  let e2 := replaceChar '×' '*' e1
  let e3 := removeChar ' ' e2
  implicitMulAux none e3

/-! ### Symbolic expressions (the SymPy values the classifier manipulates) -/

/-- Symbolic expression tree: the fragment of SymPy terms the solver
pipeline inspects (numbers, Euler's `E`, symbols, arithmetic, powers and
named function applications).  `str` printing is modelled by `exprStr`;
it reproduces SymPy's printing of the function-name and `**` tokens the
verifier greps for, without reproducing SymPy's parenthesization. -/
inductive Expr where
  | num (q : ℚ)
  | e
  | sym (name : String)
  | add (a b : Expr)
  | mul (a b : Expr)
  | pow (a b : Expr)
  | func (f : String) (arg : Expr)
deriving DecidableEq

/-- Decimal text of a rational literal. -/
def ratStr (q : ℚ) : List Char :=
  intStr q.num ++ (if q.den = 1 then [] else '/' :: natDigs q.den)

/-- Model of SymPy's `str(expr)` on the embedded fragment. -/
def exprStr : Expr → List Char
  | .num q => ratStr q
  | .e => ['E']
  | .sym n => n.data
  | .add a b => exprStr a ++ ' ' :: '+' :: ' ' :: exprStr b
  | .mul a b => exprStr a ++ '*' :: exprStr b
  | .pow a b => exprStr a ++ '*' :: '*' :: exprStr b
  | .func f arg => f.data ++ '(' :: exprStr arg ++ [')']

/-- SymPy's `free_symbols`: the set of named symbols occurring in the
expression, modelled as a duplicate-free list (`list(...)` in the source
turns the set into a list whose order is irrelevant here: the list is
only inspected when it is a singleton). -/
def freeSymbols : Expr → List String
  | .num _ => []
  | .e => []
  | .sym n => [n]
  | .add a b => freeSymbols a ∪ freeSymbols b
  | .mul a b => freeSymbols a ∪ freeSymbols b
  | .pow a b => freeSymbols a ∪ freeSymbols b
  | .func _ arg => freeSymbols arg

/-- SymPy's `as_base_exp`: `Pow(b, e) ↦ (b, e)`, `exp(a) ↦ (E, a)`,
default `(self, 1)`. -/
def asBaseExp : Expr → Expr × Expr
  | .pow a b => (a, b)
  | .func f arg => if f = "exp" then (Expr.e, arg) else (Expr.func f arg, Expr.num 1)
  | ex => (ex, Expr.num 1)

/-- SymPy's `is_number` on the embedded fragment: no free symbols. -/
def isNumber : Expr → Bool
  | .num _ => true
  | .e => true
  | .sym _ => false
  | .add a b => isNumber a && isNumber b
  | .mul a b => isNumber a && isNumber b
  | .pow a b => isNumber a && isNumber b
  | .func _ arg => isNumber arg

/-! ### Expression classifier (`src/src/utils.py`, `parse_expression`) -/

/-- The exceptions `parse_expression` can raise: the unpacking
`ValueError` from `left, right = expression.split('=')` when the split
yields more than two pieces, a `SympifyError` from the parser, and the
`ValueError("方程中必须包含且仅包含一个变量。")` raised when the free-variable
count differs from one. -/
inductive PErr where
  | unpack
  | sympifyFail
  | varCount
deriving DecidableEq

/-- The `'='`-rewriting step of `parse_expression`:
`left, right = expression.split('='); expression = f'({left}) - ({right})'`.
The two-variable unpacking fails unless the split yields exactly two
pieces. -/
def splitRewrite (expression : List Char) : Except PErr (List Char) :=
  if ('=' : Char) ∈ expression then
    match splitOnChar '=' expression with
    | [l, r] => Except.ok (('(' :: l) ++ ") - (".data ++ r ++ [')'])
    | _ => Except.error PErr.unpack
  else Except.ok expression

/-- From `src/src/utils.py`, `parse_expression`.  SymPy's `sympify` is the
external parser, modelled as an oracle `sympify` (`none` is a
`SympifyError`); SymPy's polynomial decomposition `Poly(expr, symbol)` /
`all_coeffs()` is the oracle `poly` (`none` is a `PolynomialError`,
handled as the non-polynomial branch).  The source calls `sympify` twice
on the same string; being pure, this is modelled by one call. -/
def parse_expression (sympify : List Char → Option Expr)
    (poly : Expr → String → Option (List ℚ)) (expression : List Char) :
    Except PErr (Expr × String × Option (List ℚ) × Bool) :=
  match splitRewrite (preprocess_expression expression) with
  | .error u => .error u
  | .ok expression =>
    match sympify expression with
    | none => .error PErr.sympifyFail
    | some ex =>
      match freeSymbols ex with
      | [v] =>
        match poly ex v with
        | some coeffs => .ok (ex, v, some coeffs, true)
        | none => .ok (ex, v, none, false)
      | _ => .error PErr.varCount

/-! ### Output formatter (`src/src/utils.py`, `format_number`) -/

/-- Round-half-even of a nonnegative rational to a natural number:
the rounding CPython's fixed-point float formatting applies to the
(exactly represented) value being printed. -/
def rheN (x : ℚ) : ℕ :=
  let f : ℕ := ⌊x⌋.toNat
  let r : ℚ := x - (f : ℚ)
  if r < 1 / 2 then f
  else if 1 / 2 < r then f + 1
  else if f % 2 = 0 then f else f + 1

/-- The eight decimal digits of `m` (for `m < 10 ^ 8`), zero-padded:
the fraction part of `f"{num:.8f}"`. -/
def frac8 (m : ℕ) : List Char :=
  (List.range 8).map (fun i => Nat.digitChar (m / 10 ^ (7 - i) % 10))

/-- CPython's `f"{num:.8f}"` on the rational value `num`: sign taken from
the value, magnitude rounded half-even at the eighth decimal. -/
def fixedStr (q : ℚ) : List Char :=
  let m := rheN (|q| * 10 ^ 8)
  (if q < 0 then ['-'] else []) ++ natDigs (m / 10 ^ 8) ++ '.' :: frac8 (m % 10 ^ 8)

/-- From `src/src/utils.py`, `format_number`: integral values print as
`str(int(num))`; otherwise the 8-decimal fixed-point text has its
trailing zeros, then a trailing decimal point, stripped.  (`num` is
modelled as the exact rational value of the Python float; `num == int(num)`
holds exactly when the value is integral, i.e. has denominator 1.) -/
def format_number (q : ℚ) : List Char :=
  if q.den = 1 then intStr q.num
  else
    let formatted := fixedStr q
    if ('.' : Char) ∈ formatted then rstrip '.' (rstrip '0' formatted) else formatted

/-! ### Transcendental root finder (`src/src/solver.py`, `solve_nonpolynomial`) -/

/-- Numpy's `np.isclose(a, b, atol=1e-5)` on real (here rational) scalars:
`|a - b| ≤ atol + rtol * |b|` with numpy's default `rtol = 1e-5`. -/
def np_isclose (a b : ℚ) : Bool :=
  |a - b| ≤ 1 / 100000 + 1 / 100000 * |b|

/-- Loop of `solve_nonpolynomial`: for each seed, ask `fsolve` for a
candidate (`none` models the swallowed `ValueError`/`RuntimeWarning` of a
failed solve); append it to the accumulator unless `np.isclose` matches
an already-accepted root. -/
def solveNonpolyAux (fsolveO : ℚ → Option ℚ) : List ℚ → List ℚ → List ℚ
  | [], acc => acc
  | g :: gs, acc =>
    match fsolveO g with
    | none => solveNonpolyAux fsolveO gs acc
    | some root =>
      if acc.any (fun r => np_isclose root r) then solveNonpolyAux fsolveO gs acc
      else solveNonpolyAux fsolveO gs (acc ++ [root])

/-- From `src/src/solver.py`, `solve_nonpolynomial` (the copy at
`src/solver.py` differs only in the `xtol`/`maxfev` arguments passed to
the `fsolve` oracle).  `fsolveO` models `scipy.optimize.fsolve`. -/
def solve_nonpolynomial (fsolveO : ℚ → Option ℚ) (initial_guesses : List ℚ) : List ℚ :=
  solveNonpolyAux fsolveO initial_guesses []

/-! ### Polynomial root finder (`src/src/solver.py`, `solve_polynomial`) -/

/-- The companion matrix `numpy.roots` builds for a trimmed coefficient
list `p` (nonzero ends, `len(p) = N`): an `(N-1) × (N-1)` matrix whose
first row is `-p[1:] / p[0]` and whose subdiagonal is ones. -/
def companionMatrix (p : List ℚ) : List (List ℚ) :=
  match p with
  | [] => []
  | a :: rest =>
    (rest.map (fun c => -c / a)) ::
      (List.range (rest.length - 1)).map
        (fun i => (List.range rest.length).map (fun j => if j = i then (1 : ℚ) else 0))

/-- Numpy's `roots(p)`: all-zero input yields no roots; otherwise leading
and trailing zero coefficients are trimmed, the eigenvalues of the
companion matrix of the trimmed list are computed (none when the trimmed
list is a single coefficient), and one zero root is appended per trimmed
trailing zero.  The LAPACK eigenvalue routine is the oracle `eigvals`. -/
def np_roots (eigvals : List (List ℚ) → List ℂ) (p : List ℚ) : List ℂ :=
  if p.all (fun c => c = 0) then []
  else
    let tz := (p.reverse.takeWhile (fun c => c = 0)).length
    let core := ((p.dropWhile (fun c => c = 0)).reverse.dropWhile (fun c => c = 0)).reverse
    (if 1 < core.length then eigvals (companionMatrix core) else []) ++
      List.replicate tz (0 : ℂ)

/-- From `src/src/solver.py`, `solve_polynomial`: delegate to `numpy.roots`. -/
def solve_polynomial (eigvals : List (List ℚ) → List ℂ) (coeffs : List ℚ) : List ℂ :=
  np_roots eigvals coeffs

/-! ### Root verifier (`src/src/solver.py`, `verify_roots`) -/

/-- A candidate root value: a finite number, or SymPy's `oo` / `-oo`
(the special values the verifier substitutes for cotangent-family
expressions). -/
inductive Val where
  | fin (q : ℚ)
  | inf
  | ninf
deriving DecidableEq

/-- Outcome of the external numeric test
`abs(sp.N(expr.subs(symbol, v))) < tol` for one candidate `v`: the
magnitude is below tolerance, it is not, or the substitution raises a
`TypeError`/`ValueError`. -/
inductive CheckRes where
  | pass
  | fail
  | err
deriving DecidableEq

/-- Boolean test for `CheckRes.pass`. -/
def isPass : CheckRes → Bool
  | .pass => true
  | _ => false

/-- One special-value block body of `verify_roots`: substitute each listed
special root; an exception propagates (the source has no `try` here);
a passing value is appended unless already present (Python `not in`,
value equality). -/
def addSpecials (check : Val → CheckRes) : List Val → List Val → Except Unit (List Val)
  | acc, [] => Except.ok acc
  | acc, s :: rest =>
    match check s with
    | .err => Except.error ()
    | .pass => addSpecials check (if s ∈ acc then acc else acc ++ [s]) rest
    | .fail => addSpecials check acc rest

/-- The short-circuit test of `verify_roots`:
`("exp" in expr_str or "**" in expr_str)` and the base returned by
`as_base_exp` is `E` or a number. -/
def shortCircuitB (expr : Expr) : Bool :=
  (subIn "exp".data (exprStr expr) || subIn "**".data (exprStr expr)) &&
    ((asBaseExp expr).1 = Expr.e || isNumber (asBaseExp expr).1)

/-- From `src/src/solver.py`, `verify_roots` (the active, uncommented
definition).  The numeric substitution test is the oracle `check`
(derived from `expr`, `symbol` and `tol` by the external SymPy
evaluator); the main loop catches `TypeError`/`ValueError` per root and
drops the candidate, while the four special-value blocks perform the
same test uncaught, so an error there aborts the call. -/
def verify_roots (roots : List Val) (expr : Expr) (check : Val → CheckRes) :
    Except Unit (List Val) :=
  if shortCircuitB expr then Except.ok []
  else
    let expr_str := exprStr expr
    let verified := roots.filter (fun r => isPass (check r))
    (if subIn "acos".data expr_str then
        addSpecials check verified [Val.fin 1, Val.fin (-1)] else Except.ok verified).bind
      fun v1 =>
        (if subIn "asin".data expr_str then
            addSpecials check v1 [Val.fin 0, Val.fin 1, Val.fin (-1)] else Except.ok v1).bind
          fun v2 =>
            (if subIn "arccot".data expr_str || subIn "cot".data expr_str then
                addSpecials check v2 [Val.fin 0, Val.inf, Val.ninf] else Except.ok v2).bind
              fun v3 =>
                if subIn "arctan".data expr_str then addSpecials check v3 [Val.fin 0]
                else Except.ok v3

/-- Spec-side description of the boundary values `verify_roots` tests,
as determined by the expression's text (claim C4's wording): `{1, -1}`
for an inverse-cosine term, `{0, 1, -1}` for inverse-sine, `{0, oo, -oo}`
for the cotangent family, `{0}` for an `arctan` term, in block order. -/
def boundaryValues (s : List Char) : List Val :=
  (if subIn "acos".data s then [Val.fin 1, Val.fin (-1)] else []) ++
    (if subIn "asin".data s then [Val.fin 0, Val.fin 1, Val.fin (-1)] else []) ++
      (if subIn "arccot".data s || subIn "cot".data s then
        [Val.fin 0, Val.inf, Val.ninf] else []) ++
        (if subIn "arctan".data s then [Val.fin 0] else [])

/-- The five hardcoded special values appearing across the four blocks. -/
def specialSet : List Val := [Val.fin 1, Val.fin (-1), Val.fin 0, Val.inf, Val.ninf]

/-! ### Lemmas about `splitOnChar` -/

theorem splitOnChar_ne_nil (c : Char) (s : List Char) : splitOnChar c s ≠ [] := by
  induction s with
  | nil => simp [splitOnChar]
  | cons x xs ih =>
    simp only [splitOnChar]
    split
    · simp
    · cases h : splitOnChar c xs <;> simp

theorem splitOnChar_length (c : Char) (s : List Char) :
    (splitOnChar c s).length = s.count c + 1 := by
  induction s with
  | nil => simp [splitOnChar]
  | cons x xs ih =>
    simp only [splitOnChar]
    by_cases hx : x = c
    · rw [if_pos hx]
      simp [List.count_cons, hx, ih]
    · rw [if_neg hx]
      cases h : splitOnChar c xs with
      | nil => exact absurd h (splitOnChar_ne_nil c xs)
      | cons p ps =>
        have := ih
        rw [h] at this
        simp only [List.length_cons] at this ⊢
        simp [List.count_cons, hx, this]

theorem splitOnChar_of_not_mem (c : Char) (r : List Char) (h : c ∉ r) :
    splitOnChar c r = [r] := by
  induction r with
  | nil => rfl
  | cons x xs ih =>
    have hx : ¬x = c := by rintro rfl; exact h (List.mem_cons_self x xs)
    simp only [splitOnChar, if_neg hx]
    rw [ih (fun hm => h (List.mem_cons_of_mem x hm))]

theorem splitOnChar_append (c : Char) (l r : List Char) (hl : c ∉ l) :
    splitOnChar c (l ++ c :: r) = l :: splitOnChar c r := by
  induction l with
  | nil => simp [splitOnChar]
  | cons x xs ih =>
    have hx : ¬x = c := by rintro rfl; exact hl (List.mem_cons_self x xs)
    have hrec : splitOnChar c (xs.append (c :: r)) = xs :: splitOnChar c r :=
      ih (fun hm => hl (List.mem_cons_of_mem x hm))
    simp only [List.cons_append, splitOnChar, if_neg hx, hrec]

/-! ### Claims C1 and C2: the expression classifier -/

/-- C1: `parse_expression` raises the one-variable `ValueError`
exactly when the parsed expression's set of free variables does not have
size one; with exactly one free variable it returns normally with that
variable as the symbol.  The hypotheses state that the input reaches the
parser: the `'='`-rewrite step succeeds and `sympify` parses the
rewritten string to `ex` (otherwise there is no "parsed expression"). -/
theorem parse_expression_varCount_iff
    (sympify : List Char → Option Expr) (poly : Expr → String → Option (List ℚ))
    (s s' : List Char) (ex : Expr)
    (hsplit : splitRewrite (preprocess_expression s) = Except.ok s')
    (hsym : sympify s' = some ex) :
    (parse_expression sympify poly s = Except.error PErr.varCount ↔
      (freeSymbols ex).length ≠ 1)
    ∧ ((freeSymbols ex).length = 1 →
        ∃ v, freeSymbols ex = [v] ∧
          ∃ c b, parse_expression sympify poly s = Except.ok (ex, v, c, b)) := by
  unfold parse_expression
  rw [hsplit]
  dsimp only
  rw [hsym]
  dsimp only
  rcases h : freeSymbols ex with _ | ⟨v, _ | ⟨w, t⟩⟩ <;> dsimp only
  · simp
  · rcases hp : poly ex v with _ | coeffs <;> dsimp only
    · exact ⟨by simp, fun _ => ⟨v, rfl, none, false, rfl⟩⟩
    · exact ⟨by simp, fun _ => ⟨v, rfl, some coeffs, true, rfl⟩⟩
  · simp

/-- Witness for C1 at the concrete input `"x"` with a parser oracle
returning the symbol `x`. -/
theorem parse_expression_varCount_iff_witness :
    (parse_expression (fun _ => some (Expr.sym "x")) (fun _ _ => none) "x".data =
        Except.error PErr.varCount) ↔
      (freeSymbols (Expr.sym "x")).length ≠ 1 :=
  (parse_expression_varCount_iff (fun _ => some (Expr.sym "x")) (fun _ _ => none)
    "x".data "x".data (Expr.sym "x") rfl rfl).1

/-- C2, counterexample: on the input `"x=1=2"`, which contains two
`'='` characters, `parse_expression` does not rewrite to `(L) - (R)`:
the two-variable unpacking of `split('=')` fails (a `ValueError`),
refuting the claim that such inputs are still rewritten rather than
failing.  The oracles are irrelevant: the failure precedes parsing. -/
theorem parse_expression_two_eq_fails :
    parse_expression (fun _ => none) (fun _ _ => none) "x=1=2".data =
      Except.error PErr.unpack := rfl

/-- C2, amended: with exactly one `'='`, the classifier rewrites
`L=R` to `(L) - (R)`; with two or more `'='` characters the unpacking of
`split('=')` raises instead of splitting on the first `'='`. -/
theorem splitRewrite_single_eq
    : (∀ l r : List Char, ('=' : Char) ∉ l → ('=' : Char) ∉ r →
        splitRewrite (l ++ '=' :: r) =
          Except.ok (('(' :: l) ++ ") - (".data ++ r ++ [')']))
      ∧ ∀ s : List Char, 2 ≤ s.count '=' → splitRewrite s = Except.error PErr.unpack := by
  constructor
  · intro l r hl hr
    unfold splitRewrite
    rw [if_pos (by simp), splitOnChar_append '=' l r hl, splitOnChar_of_not_mem '=' r hr]
  · intro s hs
    unfold splitRewrite
    have hin : ('=' : Char) ∈ s := List.count_pos_iff.mp (by omega)
    rw [if_pos hin]
    have hlen : 3 ≤ (splitOnChar '=' s).length := by rw [splitOnChar_length]; omega
    rcases h : splitOnChar '=' s with _ | ⟨a, _ | ⟨b, _ | ⟨c, t⟩⟩⟩
    · rfl
    · rfl
    · rw [h] at hlen; simp at hlen
    · rfl

/-- Witness for the amended C2 at `l = "x"`, `r = "1"`. -/
theorem splitRewrite_single_eq_witness :
    splitRewrite ("x".data ++ '=' :: "1".data) =
      Except.ok (('(' :: "x".data) ++ ") - (".data ++ "1".data ++ [')']) :=
  splitRewrite_single_eq.1 "x".data "1".data (by decide) (by decide)

/-! ### Claim C3: the exponential short-circuit of the verifier -/

/-- C3: when the expression's text contains `"exp"` or `"**"` and its
`as_base_exp` base is Euler's number or a numeric literal, `verify_roots`
returns the empty list, whatever the candidate list and however the
numeric substitution test would have behaved. -/
theorem verify_roots_exponential
    (roots : List Val) (expr : Expr) (check : Val → CheckRes)
    (htext : subIn "exp".data (exprStr expr) = true ∨ subIn "**".data (exprStr expr) = true)
    (hbase : (asBaseExp expr).1 = Expr.e ∨ ∃ q : ℚ, (asBaseExp expr).1 = Expr.num q) :
    verify_roots roots expr check = Except.ok [] := by
  have hsc : shortCircuitB expr = true := by
    unfold shortCircuitB
    rw [Bool.and_eq_true, Bool.or_eq_true, Bool.or_eq_true]
    refine ⟨htext.imp (fun h => h) (fun h => h), ?_⟩
    rcases hbase with h | ⟨q, h⟩
    · exact Or.inl (by simp [h])
    · exact Or.inr (by rw [h]; rfl)
  unfold verify_roots
  rw [if_pos hsc]

/-- Witness for C3: `verify_roots` on `exp(x)` with the nonempty
candidate list `[5]` returns `[]` even though every substitution would
pass. -/
theorem verify_roots_exponential_witness :
    verify_roots [Val.fin 5] (Expr.func "exp" (Expr.sym "x")) (fun _ => CheckRes.pass) =
      Except.ok [] :=
  verify_roots_exponential [Val.fin 5] (Expr.func "exp" (Expr.sym "x"))
    (fun _ => CheckRes.pass) (Or.inl (by decide)) (Or.inl (by decide))

/-! ### Lemmas about `solveNonpolyAux` -/

theorem solveNonpolyAux_cons_none (fs : ℚ → Option ℚ) (gs : List ℚ) (acc : List ℚ)
    (g : ℚ) (hf : fs g = none) :
    solveNonpolyAux fs (g :: gs) acc = solveNonpolyAux fs gs acc := by
  simp [solveNonpolyAux, hf]

theorem solveNonpolyAux_cons_dup (fs : ℚ → Option ℚ) (gs : List ℚ) (acc : List ℚ)
    (g root : ℚ) (hf : fs g = some root)
    (hg : acc.any (fun r => np_isclose root r) = true) :
    solveNonpolyAux fs (g :: gs) acc = solveNonpolyAux fs gs acc := by
  simp [solveNonpolyAux, hf, hg]

theorem solveNonpolyAux_cons_new (fs : ℚ → Option ℚ) (gs : List ℚ) (acc : List ℚ)
    (g root : ℚ) (hf : fs g = some root)
    (hg : acc.any (fun r => np_isclose root r) = false) :
    solveNonpolyAux fs (g :: gs) acc = solveNonpolyAux fs gs (acc ++ [root]) := by
  simp [solveNonpolyAux, hf, hg]

theorem solveNonpolyAux_shape (fs : ℚ → Option ℚ) (gs : List ℚ) :
    ∀ acc, ∃ extra, solveNonpolyAux fs gs acc = acc ++ extra ∧
      extra.Sublist (gs.filterMap fs) := by
  induction gs with
  | nil => exact fun acc => ⟨[], by simp [solveNonpolyAux]⟩
  | cons g gs ih =>
    intro acc
    rcases hf : fs g with _ | root
    · rw [solveNonpolyAux_cons_none fs gs acc g hf]
      simpa only [List.filterMap_cons, hf] using ih acc
    · cases hg : acc.any (fun r => np_isclose root r)
      · rw [solveNonpolyAux_cons_new fs gs acc g root hf hg]
        obtain ⟨extra, h1, h2⟩ := ih (acc ++ [root])
        exact ⟨root :: extra, by simpa using h1,
          by simpa only [List.filterMap_cons, hf] using h2.cons₂ root⟩
      · rw [solveNonpolyAux_cons_dup fs gs acc g root hf hg]
        obtain ⟨extra, h1, h2⟩ := ih acc
        exact ⟨extra, h1, by
          simpa only [List.filterMap_cons, hf] using h2.trans (List.sublist_cons_self root _)⟩

theorem solveNonpolyAux_pairwise (fs : ℚ → Option ℚ) (gs : List ℚ) :
    ∀ acc, acc.Pairwise (fun a b => np_isclose b a = false) →
      (solveNonpolyAux fs gs acc).Pairwise (fun a b => np_isclose b a = false) := by
  induction gs with
  | nil => exact fun acc h => h
  | cons g gs ih =>
    intro acc hacc
    rcases hf : fs g with _ | root
    · rw [solveNonpolyAux_cons_none fs gs acc g hf]
      exact ih acc hacc
    · cases hg : acc.any (fun r => np_isclose root r)
      · rw [solveNonpolyAux_cons_new fs gs acc g root hf hg]
        refine ih (acc ++ [root]) (List.pairwise_append.mpr ⟨hacc, by simp, ?_⟩)
        intro a ha b hb
        simp only [List.mem_singleton] at hb
        subst hb
        have := List.any_eq_false.mp hg a ha
        simpa using this
      · rw [solveNonpolyAux_cons_dup fs gs acc g root hf hg]
        exact ih acc hacc

theorem solveNonpolyAux_cover (fs : ℚ → Option ℚ) (gs : List ℚ) :
    ∀ acc, ∀ c ∈ gs.filterMap fs, ∃ r ∈ solveNonpolyAux fs gs acc,
      np_isclose c r = true := by
  induction gs with
  | nil => simp
  | cons g gs ih =>
    intro acc c hc
    rcases hf : fs g with _ | root
    · rw [solveNonpolyAux_cons_none fs gs acc g hf]
      rw [List.filterMap_cons, hf] at hc
      exact ih acc c hc
    · simp only [List.filterMap_cons, hf] at hc
      cases hg : acc.any (fun r => np_isclose root r)
      · rw [solveNonpolyAux_cons_new fs gs acc g root hf hg]
        rcases List.mem_cons.mp hc with rfl | hc'
        · obtain ⟨extra, he, -⟩ := solveNonpolyAux_shape fs gs (acc ++ [c])
          refine ⟨c, by rw [he]; exact List.mem_append_left _ (by simp), ?_⟩
          have : (0 : ℚ) ≤ 1 / 100000 + 1 / 100000 * |c| := by positivity
          simpa [np_isclose] using this
        · exact ih (acc ++ [root]) c hc'
      · rw [solveNonpolyAux_cons_dup fs gs acc g root hf hg]
        rcases List.mem_cons.mp hc with rfl | hc'
        · obtain ⟨r, hr, hrc⟩ := List.any_eq_true.mp hg
          obtain ⟨extra, he, -⟩ := solveNonpolyAux_shape fs gs acc
          exact ⟨r, by rw [he]; exact List.mem_append_left _ hr, by simpa using hrc⟩
        · exact ih acc c hc'

/-! ### Claim C5: deduplication in the transcendental root finder -/

/-- C5: the transcendental solver's result is, in order, a
subsequence of the candidates the `fsolve` oracle produced over the seed
grid (output order = seed order, so on a clash the first-seen candidate
is the one kept); any two returned roots differ by more than `1e-5` in
absolute value (the `np.isclose` guard used for acceptance implies this);
and every produced candidate is `np.isclose` to some returned root, so a
candidate is dropped only in favour of an earlier-accepted nearby root. -/
theorem solve_nonpolynomial_dedup (fs : ℚ → Option ℚ) (guesses : List ℚ) :
    (solve_nonpolynomial fs guesses).Sublist (guesses.filterMap fs)
    ∧ (solve_nonpolynomial fs guesses).Pairwise (fun a b => 1 / 100000 < |a - b|)
    ∧ (∀ x ∈ solve_nonpolynomial fs guesses, ∀ y ∈ solve_nonpolynomial fs guesses,
        x ≠ y → 1 / 100000 < |x - y|)
    ∧ ∀ c ∈ guesses.filterMap fs, ∃ r ∈ solve_nonpolynomial fs guesses,
        np_isclose c r = true := by
  have hpw : (solve_nonpolynomial fs guesses).Pairwise (fun a b => 1 / 100000 < |a - b|) := by
    have h := solveNonpolyAux_pairwise fs guesses [] (by simp)
    refine h.imp ?_
    intro a b hab
    have habs : ¬(|b - a| ≤ 1 / 100000 + 1 / 100000 * |a|) := by
      simpa [np_isclose] using hab
    have h0 : (0 : ℚ) ≤ 1 / 100000 * |a| := by positivity
    rw [abs_sub_comm a b]
    linarith [not_le.mp habs]
  refine ⟨?_, hpw, ?_, ?_⟩
  · obtain ⟨extra, h1, h2⟩ := solveNonpolyAux_shape fs guesses []
    rw [solve_nonpolynomial, h1]
    simpa using h2
  · exact fun x hx y hy hxy =>
      hpw.forall (fun u w h => by rwa [abs_sub_comm]) hx hy hxy
  · exact solveNonpolyAux_cover fs guesses []

/-- Witness for C5 on a concrete oracle: the single seed `1` produces the
candidate `7`, which is accepted, and the output is a subsequence of the
candidate stream. -/
theorem solve_nonpolynomial_dedup_witness :
    solve_nonpolynomial (fun _ => some 7) [1] = [7]
    ∧ (solve_nonpolynomial (fun _ => some 7) [1]).Sublist
        (([1] : List ℚ).filterMap (fun _ => some (7 : ℚ))) :=
  ⟨rfl, (solve_nonpolynomial_dedup (fun _ => some 7) [1]).1⟩

/-! ### Claim C6: root count of the polynomial solver -/

theorem companionMatrix_length (l : List ℚ) (h : 2 ≤ l.length) :
    (companionMatrix l).length = l.length - 1 := by
  rcases l with _ | ⟨x, _ | ⟨y, ys⟩⟩
  · simp at h
  · simp at h
  · simp [companionMatrix]

/-- C6: `solve_polynomial` (numpy's `roots`) returns exactly
degree-many roots, counted with multiplicity, for every coefficient list
of length ≥ 1 with nonzero leading coefficient (the shape `Poly.all_coeffs`
produces): the eigenvalue oracle returns one eigenvalue per row of the
companion matrix, and trimmed trailing zeros are restored as zero roots.
A degree-0 (constant) list yields no roots. -/
theorem solve_polynomial_count (eigvals : List (List ℚ) → List ℂ)
    (heig : ∀ M, (eigvals M).length = M.length) :
    (∀ (a : ℚ) (rest : List ℚ), a ≠ 0 →
      (solve_polynomial eigvals (a :: rest)).length = rest.length)
    ∧ ∀ c : ℚ, solve_polynomial eigvals [c] = [] := by
  constructor
  · intro a rest ha
    unfold solve_polynomial np_roots
    rw [if_neg (by simp [ha])]
    have hd : List.dropWhile (fun c : ℚ => decide (c = 0)) (a :: rest) = a :: rest := by
      simp [List.dropWhile_cons, ha]
    dsimp only
    rw [hd]
    set rv := (a :: rest).reverse with hrv
    set dw := rv.dropWhile (fun c : ℚ => decide (c = 0)) with hdw
    set tw := rv.takeWhile (fun c : ℚ => decide (c = 0)) with htw
    have hsum : tw.length + dw.length = rest.length + 1 := by
      have hcat : tw ++ dw = rv := List.takeWhile_append_dropWhile _ _
      have hl : (tw ++ dw).length = rv.length := by rw [hcat]
      simpa [hrv] using hl
    have hne : dw ≠ [] := by
      intro h0
      have hall := List.dropWhile_eq_nil_iff.mp h0
      have hmem : a ∈ rv := by simp [hrv]
      have := hall a hmem
      simp [ha] at this
    have hpos : 1 ≤ dw.length := List.length_pos.mpr hne
    simp only [List.length_append, List.length_replicate, List.length_reverse]
    by_cases hc : 1 < dw.length
    · rw [if_pos hc, heig, companionMatrix_length dw.reverse (by simpa using hc)]
      simp only [List.length_reverse]
      omega
    · rw [if_neg hc]
      simp only [List.length_nil, Nat.zero_add]
      omega
  · intro c
    by_cases hc0 : c = 0
    · subst hc0
      simp [solve_polynomial, np_roots]
    · simp [solve_polynomial, np_roots, List.takeWhile_cons, List.dropWhile_cons, hc0]

/-- An eigenvalue oracle for the C6 witness: one (dummy) eigenvalue per
matrix row, which is all the count claim relies on. -/
def eigPerRow (M : List (List ℚ)) : List ℂ := M.map (fun _ => 0)

/-- Witness for C6: the quadratic `[1, -5, 6]` gets two roots and the
constant list `[7]` gets none. -/
theorem solve_polynomial_count_witness :
    (solve_polynomial eigPerRow [1, -5, 6]).length = 2
    ∧ solve_polynomial eigPerRow [7] = [] :=
  ⟨by simpa using (solve_polynomial_count eigPerRow
      (fun M => List.length_map M _)).1 1 [-5, 6] (by decide),
   (solve_polynomial_count eigPerRow (fun M => List.length_map M _)).2 7⟩

/-! ### Lemmas about `addSpecials` and the structure of `verify_roots` -/

theorem addSpecials_bind_append (check : Val → CheckRes) (l1 l2 : List Val) :
    ∀ acc, (addSpecials check acc l1).bind (fun m => addSpecials check m l2) =
      addSpecials check acc (l1 ++ l2) := by
  induction l1 with
  | nil => intro acc; simp [addSpecials, Except.bind]
  | cons s t ih =>
    intro acc
    simp only [List.cons_append, addSpecials]
    cases check s
    · exact ih _
    · exact ih acc
    · rfl

theorem stepIf (check : Val → CheckRes) (b : Bool) (acc l : List Val) :
    (if b then addSpecials check acc l else Except.ok acc) =
      addSpecials check acc (if b then l else []) := by
  cases b <;> rfl

/-- Outside the exponential short-circuit, `verify_roots` is the generic
filter of the candidates followed by one `addSpecials` sweep over the
text-determined boundary values, in block order. -/
theorem verify_roots_eq (roots : List Val) (expr : Expr) (check : Val → CheckRes)
    (h : shortCircuitB expr = false) :
    verify_roots roots expr check =
      addSpecials check (roots.filter (fun r => isPass (check r)))
        (boundaryValues (exprStr expr)) := by
  unfold verify_roots boundaryValues
  rw [if_neg (by simp [h])]
  dsimp only
  simp only [stepIf, addSpecials_bind_append, List.append_assoc]

theorem addSpecials_shape (check : Val → CheckRes) (l : List Val) :
    ∀ acc res, addSpecials check acc l = Except.ok res →
      ∃ extra, res = acc ++ extra ∧ ∀ x ∈ extra, x ∈ l ∧ check x = CheckRes.pass := by
  induction l with
  | nil =>
    intro acc res h
    simp only [addSpecials] at h
    cases h
    exact ⟨[], by simp, by simp⟩
  | cons s t ih =>
    intro acc res h
    simp only [addSpecials] at h
    cases hs : check s <;> simp only [hs] at h
    · by_cases hmem : s ∈ acc
      · rw [if_pos hmem] at h
        obtain ⟨extra, hres, hx⟩ := ih acc res h
        exact ⟨extra, hres, fun x hx' => ⟨List.mem_cons_of_mem s (hx x hx').1, (hx x hx').2⟩⟩
      · rw [if_neg hmem] at h
        obtain ⟨extra, hres, hx⟩ := ih (acc ++ [s]) res h
        refine ⟨s :: extra, by simpa using hres, fun x hx' => ?_⟩
        rcases List.mem_cons.mp hx' with rfl | hx''
        · exact ⟨List.mem_cons_self x t, hs⟩
        · exact ⟨List.mem_cons_of_mem s (hx x hx'').1, (hx x hx'').2⟩
    · obtain ⟨extra, hres, hx⟩ := ih acc res h
      exact ⟨extra, hres, fun x hx' => ⟨List.mem_cons_of_mem s (hx x hx').1, (hx x hx').2⟩⟩
    · cases h

theorem addSpecials_ok_props (check : Val → CheckRes) (l : List Val) :
    ∀ acc res, addSpecials check acc l = Except.ok res →
      ∀ s' ∈ l, check s' ≠ CheckRes.err ∧ (check s' = CheckRes.pass → s' ∈ res) := by
  induction l with
  | nil => simp
  | cons s t ih =>
    intro acc res h s' hs'
    simp only [addSpecials] at h
    cases hs : check s <;> simp only [hs] at h
    · rcases List.mem_cons.mp hs' with rfl | hmem'
      · refine ⟨by simp [hs], fun _ => ?_⟩
        obtain ⟨extra, hres, -⟩ := addSpecials_shape check t _ res h
        have hin : s' ∈ (if s' ∈ acc then acc else acc ++ [s']) := by
          split <;> simp_all
        rw [hres]
        exact List.mem_append_left _ hin
      · exact ih _ res h s' hmem'
    · rcases List.mem_cons.mp hs' with rfl | hmem'
      · exact ⟨by simp [hs], fun hp => by rw [hs] at hp; cases hp⟩
      · exact ih acc res h s' hmem'
    · cases h

theorem addSpecials_id (check : Val → CheckRes) (l : List Val) :
    ∀ acc, (∀ s ∈ l, check s ≠ CheckRes.err ∧ (check s = CheckRes.pass → s ∈ acc)) →
      addSpecials check acc l = Except.ok acc := by
  induction l with
  | nil => intro acc _; rfl
  | cons s t ih =>
    intro acc h
    simp only [addSpecials]
    cases hs : check s
    · rw [if_pos ((h s (List.mem_cons_self s t)).2 hs)]
      exact ih acc (fun x hx => h x (List.mem_cons_of_mem s hx))
    · exact ih acc (fun x hx => h x (List.mem_cons_of_mem s hx))
    · exact absurd hs (h s (List.mem_cons_self s t)).1

theorem boundaryValues_subset (s : List Char) :
    ∀ x ∈ boundaryValues s, x ∈ specialSet := by
  intro x hx
  unfold boundaryValues at hx
  simp only [List.mem_append] at hx
  unfold specialSet
  rcases hx with ((h | h) | h) | h <;> (split at h <;> simp_all) <;> tauto

/-! ### Claim C4: boundary-value augmentation of the verifier -/

/-- C4: outside the exponential short-circuit, `verify_roots` tests
exactly the boundary values determined by the expression's text
(`{1,-1}` for `acos`, `{0,1,-1}` for `asin`, `{0, oo, -oo}` for the
cotangent family, `{0}` for `arctan`), appending — in block order — each
one whose substituted magnitude is below tolerance (`check` passes) and
which is not already present; in particular every passing boundary value
is in the returned list. -/
theorem verify_roots_boundary (roots : List Val) (expr : Expr) (check : Val → CheckRes)
    (h : shortCircuitB expr = false) :
    verify_roots roots expr check =
      addSpecials check (roots.filter (fun r => isPass (check r)))
        (boundaryValues (exprStr expr))
    ∧ ∀ out, verify_roots roots expr check = Except.ok out →
        ∀ s ∈ boundaryValues (exprStr expr), check s = CheckRes.pass → s ∈ out := by
  refine ⟨verify_roots_eq roots expr check h, ?_⟩
  intro out hout s hs hp
  rw [verify_roots_eq roots expr check h] at hout
  exact ((addSpecials_ok_props check (boundaryValues (exprStr expr)) _ out hout) s hs).2 hp

/-- The all-pass substitution oracle used by concrete witnesses. -/
def chkPass : Val → CheckRes := fun _ => CheckRes.pass

/-- Witness for C4 on `arctan(x)` (an applied function whose printed text
contains `arctan`) with an empty candidate list. -/
theorem verify_roots_boundary_witness :
    verify_roots [] (Expr.func "arctan" (Expr.sym "x")) chkPass =
      addSpecials chkPass (List.filter (fun r => isPass (chkPass r)) [])
        (boundaryValues (exprStr (Expr.func "arctan" (Expr.sym "x")))) :=
  (verify_roots_boundary [] (Expr.func "arctan" (Expr.sym "x")) chkPass (by decide)).1

/-! ### Claim C7: idempotence of the verifier -/

/-- C7: `verify_roots` is idempotent: whenever it returns a list
(rather than raising from a special-value substitution), re-running it on
that list returns the same list unchanged, for the same expression and
substitution oracle. -/
theorem verify_roots_idempotent (roots : List Val) (expr : Expr) (check : Val → CheckRes)
    (out : List Val) (h : verify_roots roots expr check = Except.ok out) :
    verify_roots out expr check = Except.ok out := by
  by_cases hsc : shortCircuitB expr = true
  · unfold verify_roots at h ⊢
    rw [if_pos hsc] at h ⊢
    cases h
    rfl
  · have hsc' : shortCircuitB expr = false := by
      cases hb : shortCircuitB expr
      · rfl
      · exact absurd hb hsc
    rw [verify_roots_eq roots expr check hsc'] at h
    rw [verify_roots_eq out expr check hsc']
    have hpassF : ∀ x ∈ roots.filter (fun r => isPass (check r)), check x = CheckRes.pass := by
      intro x hx
      have := List.of_mem_filter hx
      cases hcx : check x <;> simp [isPass, hcx] at this ⊢
    obtain ⟨extra, hres, hx⟩ :=
      addSpecials_shape check (boundaryValues (exprStr expr)) _ out h
    have hall : ∀ x ∈ out, check x = CheckRes.pass := by
      intro x hxo
      rw [hres] at hxo
      rcases List.mem_append.mp hxo with hxf | hxe
      · exact hpassF x hxf
      · exact (hx x hxe).2
    have hfilter : out.filter (fun r => isPass (check r)) = out :=
      List.filter_eq_self.mpr (fun a ha => by rw [hall a ha]; rfl)
    rw [hfilter]
    exact addSpecials_id check (boundaryValues (exprStr expr)) out
      (addSpecials_ok_props check (boundaryValues (exprStr expr)) _ out h)

/-- Witness for C7: on `acos(x)` the first run keeps the candidate `2`
and appends the boundary roots `1` and `-1`; a second run returns that
list unchanged. -/
theorem verify_roots_idempotent_witness :
    verify_roots [Val.fin 2, Val.fin 1, Val.fin (-1)] (Expr.func "acos" (Expr.sym "x"))
      chkPass = Except.ok [Val.fin 2, Val.fin 1, Val.fin (-1)] :=
  verify_roots_idempotent [Val.fin 2] (Expr.func "acos" (Expr.sym "x")) chkPass
    [Val.fin 2, Val.fin 1, Val.fin (-1)] (by rfl)

/-! ### Claim C10: provenance and order of the verifier's output -/

/-- C10: every element of a list returned by `verify_roots` is either
one of the input candidates or one of the five hardcoded special values
`{1, -1, 0, oo, -oo}`; the output is the surviving candidates, in their
original input order, followed by appended special values — the verifier
never invents any other root. -/
theorem verify_roots_provenance (roots : List Val) (expr : Expr) (check : Val → CheckRes)
    (out : List Val) (h : verify_roots roots expr check = Except.ok out) :
    (∀ x ∈ out, x ∈ roots ∨ x ∈ specialSet)
    ∧ ∃ kept extra, out = kept ++ extra ∧ kept.Sublist roots ∧
        ∀ x ∈ extra, x ∈ specialSet := by
  by_cases hsc : shortCircuitB expr = true
  · unfold verify_roots at h
    rw [if_pos hsc] at h
    cases h
    exact ⟨by simp, [], [], rfl, List.nil_sublist roots, by simp⟩
  · have hsc' : shortCircuitB expr = false := by
      cases hb : shortCircuitB expr
      · rfl
      · exact absurd hb hsc
    rw [verify_roots_eq roots expr check hsc'] at h
    obtain ⟨extra, hres, hx⟩ :=
      addSpecials_shape check (boundaryValues (exprStr expr)) _ out h
    refine ⟨?_, roots.filter (fun r => isPass (check r)), extra, hres, List.filter_sublist _, ?_⟩
    · intro x hxo
      rw [hres] at hxo
      rcases List.mem_append.mp hxo with hxf | hxe
      · exact Or.inl (List.mem_of_mem_filter hxf)
      · exact Or.inr (boundaryValues_subset _ x (hx x hxe).1)
    · exact fun x hxe => boundaryValues_subset _ x (hx x hxe).1

/-- The substitution oracle for the C10 witness: only the value `0`
passes the tolerance test. -/
def chkZero : Val → CheckRes := fun v => if v = Val.fin 0 then CheckRes.pass else CheckRes.fail

/-- Witness for C10 on `asin(x)`: the candidate `2` fails verification
and the boundary root `0` is appended, so the output is `[0]` — made of
hardcoded special values only. -/
theorem verify_roots_provenance_witness :
    (∀ x ∈ [Val.fin 0], x ∈ [Val.fin 2] ∨ x ∈ specialSet)
    ∧ ∃ kept extra, [Val.fin 0] = kept ++ extra ∧ kept.Sublist [Val.fin 2] ∧
        ∀ x ∈ extra, x ∈ specialSet :=
  verify_roots_provenance [Val.fin 2] (Expr.func "asin" (Expr.sym "x")) chkZero
    [Val.fin 0] (by rfl)

/-! ### Claim C8: the `e → exp(1)` substitution of the normalizer -/

/-- The predicate `eOkB l` holds when every occurrence of the letter `e` in `l` is the
head of an `exp(1)` token — the spec-side statement that the letter `e`
cannot survive as a standalone (variable) name. -/
def eOkB : List Char → Bool
  | [] => true
  | c :: t => (!(c == 'e') || matchesAt ['x', 'p', '(', '1', ')'] t) && eOkB t

theorem replaceE_eOk (l : List Char) : eOkB (replaceE l) = true := by
  induction l with
  | nil => rfl
  | cons c t ih =>
    by_cases hc : c = 'e'
    · subst hc
      simp only [replaceE, if_pos rfl]
      simp [eOkB, matchesAt, ih]
    · simp only [replaceE, if_neg hc]
      simp [eOkB, hc, ih]

theorem matchesAt_xp1 (t : List Char) (h : matchesAt ['x', 'p', '(', '1', ')'] t = true) :
    ∃ t5, t = 'x' :: 'p' :: '(' :: '1' :: ')' :: t5 := by
  rcases t with _ | ⟨a, _ | ⟨b, _ | ⟨c, _ | ⟨d, _ | ⟨f, t5⟩⟩⟩⟩⟩ <;>
    simp [matchesAt] at h
  obtain ⟨rfl, rfl, rfl, rfl, rfl⟩ := h
  exact ⟨t5, rfl⟩

theorem implicitMulAux_eOk :
    ∀ (n : ℕ) (l : List Char) (prev : Option Char), l.length ≤ n → eOkB l = true →
      eOkB (implicitMulAux prev l) = true := by
  intro n
  induction n with
  | zero =>
    intro l prev hl _
    rw [List.length_eq_zero.mp (Nat.le_zero.mp hl)]
    rfl
  | succ n ih =>
    intro l prev hl hok
    rcases l with _ | ⟨c, t⟩
    · rfl
    · have hsplit : eOkB (c :: t) =
          ((!(c == 'e') || matchesAt ['x', 'p', '(', '1', ')'] t) && eOkB t) := rfl
      rw [hsplit, Bool.and_eq_true] at hok
      obtain ⟨hok1, hokt⟩ := hok
      have hred : eOkB (c :: implicitMulAux (some c) t) = true →
          eOkB (implicitMulAux prev (c :: t)) = true := by
        intro hgoal
        simp only [implicitMulAux]
        split
        · simpa [eOkB] using hgoal
        · simpa [eOkB] using hgoal
      apply hred
      by_cases hc : c = 'e'
      · subst hc
        have hmat : matchesAt ['x', 'p', '(', '1', ')'] t = true := by
          simpa using hok1
        obtain ⟨t5, rfl⟩ := matchesAt_xp1 t hmat
        have ht5 : eOkB t5 = true := by
          simpa [eOkB] using hokt
        have ht5len : t5.length ≤ n := by
          simp only [List.length_cons] at hl
          omega
        have haux : implicitMulAux (some 'e') ('x' :: 'p' :: '(' :: '1' :: ')' :: t5) =
            'x' :: 'p' :: '(' :: '1' :: ')' :: implicitMulAux (some ')') t5 := by
          simp [implicitMulAux]
        rw [haux]
        simp [eOkB, matchesAt]
        exact ih t5 (some ')') ht5len ht5
      · have ht : t.length ≤ n := by
          simp only [List.length_cons] at hl
          omega
        simp [eOkB, hc]
        exact ih t (some c) ht hokt

/-- C8, counterexample: the duplicate normalizer `preprocess_expression`
at `src/solver.py` lines 5–21 — one of the two definitions the claim is
about — performs no `e → exp(1)` substitution at all: on input `"e"` it
returns `"e"` unchanged, so the letter `e` survives normalization (and
would parse downstream as the free variable `e`). -/
theorem solver_copy_keeps_e :
    preprocess_expression_solver_copy "e".data = "e".data
    ∧ eOkB (preprocess_expression_solver_copy "e".data) = false := by
  constructor
  · rfl
  · rfl

/-- C8, amended: the normalizer in `src/src/utils.py` replaces every
occurrence of the letter `e` with the token `exp(1)`: in its output every
`e` is immediately followed by `xp(1)`, so `e` never survives as a
standalone variable name.  The duplicate normalizer in `src/solver.py`
performs no such substitution (see the counterexample). -/
theorem preprocess_expression_e_token (s : List Char) :
    eOkB (preprocess_expression s) = true := by
  unfold preprocess_expression
  exact implicitMulAux_eOk (replaceE (removeChar ' '
      (replaceChar '×' '*' (replaceChar '−' '-' s)))).length _ none le_rfl
    (replaceE_eOk _)

/-! ### Claim C9: the number formatter -/

theorem dropWhile_head_not (p : Char → Bool) (l : List Char) (c : Char) (rest : List Char)
    (h : l.dropWhile p = c :: rest) : p c = false := by
  induction l with
  | nil => simp at h
  | cons x xs ih =>
    rw [List.dropWhile_cons] at h
    split at h
    · exact ih h
    · rename_i hx
      cases h
      simpa using hx

theorem digitChar_ne_dot (d : ℕ) (h : d < 10) : Nat.digitChar d ≠ '.' := by
  interval_cases d <;> decide

theorem digitChar_eq_zero_iff (d : ℕ) (h : d < 10) : Nat.digitChar d = '0' ↔ d = 0 := by
  interval_cases d <;> simp [Nat.digitChar]

theorem frac8_mem (ch : Char) (m : ℕ) (h : ch ∈ frac8 m) :
    ∃ d, d < 10 ∧ ch = Nat.digitChar d := by
  unfold frac8 at h
  simp only [List.mem_map, List.mem_range] at h
  obtain ⟨i, _, rfl⟩ := h
  exact ⟨_, Nat.mod_lt _ (by norm_num), rfl⟩

theorem frac8_all_zero (m : ℕ) (h : ∀ ch ∈ frac8 m, ch = '0') (hm : m < 10 ^ 8) :
    m = 0 := by
  have key : ∀ i : ℕ, i < 8 → m / 10 ^ (7 - i) % 10 = 0 := by
    intro i hi
    have hch := h (Nat.digitChar (m / 10 ^ (7 - i) % 10)) (by
      unfold frac8
      simp only [List.mem_map, List.mem_range]
      exact ⟨i, hi, rfl⟩)
    exact (digitChar_eq_zero_iff _ (Nat.mod_lt _ (by norm_num))).mp hch
  have h0 := key 0 (by norm_num)
  have h1 := key 1 (by norm_num)
  have h2 := key 2 (by norm_num)
  have h3 := key 3 (by norm_num)
  have h4 := key 4 (by norm_num)
  have h5 := key 5 (by norm_num)
  have h6 := key 6 (by norm_num)
  have h7 := key 7 (by norm_num)
  norm_num at h0 h1 h2 h3 h4 h5 h6 h7 hm
  omega

theorem frac8_rstrip (m : ℕ) (hm : m < 10 ^ 8) (hnz : m ≠ 0) :
    ∃ c rest, (frac8 m).reverse.dropWhile (fun x => x == '0') = c :: rest ∧
      (c == '0') = false ∧ c ≠ '.' := by
  cases hdw : (frac8 m).reverse.dropWhile (fun x => x == '0') with
  | nil =>
    exfalso
    have hall := List.dropWhile_eq_nil_iff.mp hdw
    refine hnz (frac8_all_zero m ?_ hm)
    intro ch hch
    have := hall ch (List.mem_reverse.mpr hch)
    simpa using this
  | cons c rest =>
    have hcp : (c == '0') = false := dropWhile_head_not _ _ c rest hdw
    have hcmem : c ∈ (frac8 m).reverse :=
      (List.dropWhile_sublist _).subset (hdw ▸ List.mem_cons_self c rest)
    obtain ⟨d, hd, rfl⟩ := frac8_mem c m (List.mem_reverse.mp hcmem)
    exact ⟨Nat.digitChar d, rest, rfl, hcp, digitChar_ne_dot d hd⟩

/-- The concrete counterexample value `10⁻⁹`, as the reduced fraction
`1 / 1000000000` (the exact rational represented by the Python float
`1e-9` differs microscopically from `10⁻⁹` but rounds to the same
8-decimal string). -/
def qTiny : ℚ := Rat.mk' 1 1000000000 (by norm_num) (Nat.coprime_one_left _)

theorem qTiny_val : qTiny = 1 / 1000000000 := by
  unfold qTiny
  rw [Rat.mk'_eq_divInt, Rat.divInt_eq_div]
  norm_num

/-- C9, counterexample: `format_number` on the non-integral value
`10⁻⁹` produces the bare integer string `"0"`: the 8-decimal rendering
is `0.00000000` and the trailing-zero/point trimming removes the entire
fraction, refuting "a non-integral number is never displayed as a bare
integer". -/
theorem format_number_bare_integer :
    qTiny = 1 / 1000000000 ∧ qTiny.den ≠ 1 ∧ format_number qTiny = ['0'] := by
  refine ⟨qTiny_val, by decide, ?_⟩
  have habs : |qTiny| = qTiny := abs_of_pos (by rw [qTiny_val]; norm_num)
  have hmul : qTiny * 10 ^ 8 = 1 / 10 := by rw [qTiny_val]; norm_num
  have hfloor : ⌊(1 / 10 : ℚ)⌋ = 0 := by
    rw [Int.floor_eq_zero_iff]
    constructor <;> norm_num
  have hm : rheN (|qTiny| * 10 ^ 8) = 0 := by
    rw [habs, hmul]
    unfold rheN
    rw [hfloor]
    norm_num
  have hneg : ¬qTiny < 0 := by rw [qTiny_val]; norm_num
  unfold format_number
  rw [if_neg (by decide)]
  have hfs : fixedStr qTiny = '0' :: '.' :: frac8 0 := by
    unfold fixedStr
    rw [hm, if_neg hneg]
    rfl
  rw [hfs]
  decide

/-- C9, amended: `format_number` returns the bare integer string
`str(int(num))` when `num` is integral; otherwise it returns the
8-decimal fixed-point rendering with trailing zeros and then a trailing
decimal point stripped — and whenever the 8-decimal rounding of the
magnitude is not integral this display retains a decimal point.  (When
the rounding is integral — `num` within `5·10⁻⁹` of an integer — the
trimming removes the point and a non-integral number is displayed as a
bare integer; see the counterexample.) -/
theorem format_number_rule :
    (∀ q : ℚ, q.den = 1 → format_number q = intStr q.num)
    ∧ ∀ q : ℚ, q.den ≠ 1 → rheN (|q| * 10 ^ 8) % 10 ^ 8 ≠ 0 →
        ('.' : Char) ∈ format_number q := by
  constructor
  · intro q hq
    unfold format_number
    rw [if_pos hq]
  · intro q hq hmod
    unfold format_number
    rw [if_neg hq]
    dsimp only
    set m := rheN (|q| * 10 ^ 8) with hm
    set A : List Char := (if q < 0 then ['-'] else []) ++ natDigs (m / 10 ^ 8) with hA
    set F : List Char := frac8 (m % 10 ^ 8) with hF
    have hfs : fixedStr q = A ++ '.' :: F := by
      unfold fixedStr
      rw [hA, hF, ← hm]
    rw [hfs, if_pos (by simp)]
    obtain ⟨c, rest, hdw, hc0, hcdot⟩ :=
      frac8_rstrip (m % 10 ^ 8) (Nat.mod_lt _ (by norm_num)) hmod
    have h1 : rstrip '0' (A ++ '.' :: F) = ((c :: rest) ++ '.' :: A.reverse).reverse := by
      unfold rstrip
      have hrev : (A ++ '.' :: F).reverse = F.reverse ++ '.' :: A.reverse := by simp
      rw [hrev, List.dropWhile_append, if_neg (by rw [hF, hdw]; simp), hF, hdw]
    have h2 : rstrip '.' (((c :: rest) ++ '.' :: A.reverse).reverse) =
        ((c :: rest) ++ '.' :: A.reverse).reverse := by
      unfold rstrip
      rw [List.reverse_reverse, List.cons_append, List.dropWhile_cons,
        if_neg (by simp [hcdot])]
    rw [h1, h2]
    simp

/-- Witness for the amended C9 at the integral input `3`. -/
theorem format_number_rule_witness :
    format_number (3 : ℚ) = intStr (3 : ℚ).num :=
  format_number_rule.1 3 rfl

end MultiFinder
